import Mathlib

/-!
Verification development for a repository of single-file physics toy
simulations.  The shared numeric kernel (complex scalars, dense
vectors/matrices, 2x2 matrix exponential, Kronecker products, partial
trace, normalization) and the simulation update loops are embedded
shallowly: `f64` values become real numbers (with an explicit IEEE-754
special-value model where NaN/Inf behaviour matters), `Complex<f64>`
becomes `ℂ` (or a pair of modelled floats), loops become folds, and
ambient randomness becomes explicit streams of draws.
-/

open scoped Classical

namespace QGP

/-- Embedding of `[[Complex<f64>; 2]; 2]` from quark-gluon-plasma: a 2x2
complex matrix given by its four entries. -/
@[ext]
structure M2 where
  e00 : ℂ
  e01 : ℂ
  e10 : ℂ
  e11 : ℂ

/-- Embedding of the principal complex square root of `num_complex`:
`sqrt(r·exp(iθ)) = sqrt(r)·exp(iθ/2)` with `r = |z|`, `θ = arg z` (the
`atan2` convention, matching `Complex.arg`). -/
noncomputable def csqrt (z : ℂ) : ℂ :=
  ((Real.sqrt (Complex.abs z) : ℝ) : ℂ) * Complex.exp (((Complex.arg z / 2 : ℝ) : ℂ) * Complex.I)

/-- Embedding of `matrix_exponential` (quark-gluon-plasma/src/main.rs,
lines 530-566), the closed-form 2x2 matrix exponential: trace `t`,
discriminant `delta = (a00-a11)^2 + 4*a01*a10`, and the
`factor = sinh(sqrt(delta)/2)/sqrt(delta)` coefficient with the `0.5`
fallback when `sqrt(delta)` is zero. -/
noncomputable def matrix_exponential (a : M2) : M2 :=
  let trace := a.e00 + a.e11
  let delta := (a.e00 - a.e11) ^ 2 + 4 * a.e01 * a.e10
  let sqrt_delta := csqrt delta
  let exp_half_trace := Complex.exp (trace / 2)
  let ch := Complex.cosh (sqrt_delta / 2)
  let sh := Complex.sinh (sqrt_delta / 2)
  let factor := if sqrt_delta ≠ 0 then sh / sqrt_delta else (1 : ℂ) / 2
  { e00 := exp_half_trace * (ch + factor * (a.e00 - a.e11) / 2)
    e01 := exp_half_trace * factor * a.e01 * 2
    e10 := exp_half_trace * factor * a.e10 * 2
    e11 := exp_half_trace * (ch - factor * (a.e00 - a.e11) / 2) }

/-- The `factor` coefficient of `matrix_exponential`, named for reuse in
statements: `sinh(sqrt(delta)/2)/sqrt(delta)`, or `0.5` when
`sqrt(delta)` is numerically zero. -/
noncomputable def exp_factor (a : M2) : ℂ :=
  let delta := (a.e00 - a.e11) ^ 2 + 4 * a.e01 * a.e10
  let sqrt_delta := csqrt delta
  if sqrt_delta ≠ 0 then Complex.sinh (sqrt_delta / 2) / sqrt_delta else (1 : ℂ) / 2

/-- Embedding of `Lattice::time_evolution_operator`
(quark-gluon-plasma/src/main.rs, lines 444-460): scales the Hamiltonian
by `Complex::new(0.0, -dt/hbar)` entrywise and applies
`matrix_exponential`.  The source fixes `dt = DELTA_T` and
`hbar = HBAR`; they are parameters here so that the example scenario of the spec
(`dt = π`, `hbar = 1`) can be evaluated. -/
noncomputable def time_evolution_operator (h : M2) (dt hbar : ℝ) : M2 :=
  let factor : ℂ := ⟨0, -dt / hbar⟩
  matrix_exponential ⟨h.e00 * factor, h.e01 * factor, h.e10 * factor, h.e11 * factor⟩

/-- Matrix addition on `M2` (spec-side combinator). -/
def M2.add (m n : M2) : M2 := ⟨m.e00 + n.e00, m.e01 + n.e01, m.e10 + n.e10, m.e11 + n.e11⟩

/-- Matrix subtraction on `M2` (spec-side combinator). -/
def M2.sub (m n : M2) : M2 := ⟨m.e00 - n.e00, m.e01 - n.e01, m.e10 - n.e10, m.e11 - n.e11⟩

/-- Scalar multiplication on `M2` (spec-side combinator). -/
def M2.smul (c : ℂ) (m : M2) : M2 := ⟨c * m.e00, c * m.e01, c * m.e10, c * m.e11⟩

/-- The 2x2 identity matrix. -/
def M2.one : M2 := ⟨1, 0, 0, 1⟩

/-- Doubling of the off-diagonal entries of a matrix; this is the
correction the source `matrix_exponential` applies relative to the
closed-form formula stated in the spec. -/
def M2.offDouble (m : M2) : M2 := ⟨m.e00, 2 * m.e01, 2 * m.e10, m.e11⟩

/-- Modelled from the spec: the closed-form claimed in C1,
`exp(t/2)·[cosh(sqrt(delta)/2)·I + (sinh(sqrt(delta)/2)/sqrt(delta))·(A - (t/2)·I)]`,
with the same `0.5` fallback for the coefficient when `sqrt(delta)` is
numerically zero. -/
noncomputable def matrix_exponential_claimed (a : M2) : M2 :=
  let t := a.e00 + a.e11
  let delta := (a.e00 - a.e11) ^ 2 + 4 * a.e01 * a.e10
  let sqrt_delta := csqrt delta
  M2.smul (Complex.exp (t / 2))
    (M2.add (M2.smul (Complex.cosh (sqrt_delta / 2)) M2.one)
      (M2.smul (exp_factor a) (M2.sub a (M2.smul (t / 2) M2.one))))

/-- The square root of zero is zero in the embedded principal square
root, as in `num_complex`. -/
theorem csqrt_zero : csqrt 0 = 0 := by
  simp [csqrt]

/-- The strictly upper-triangular input used to separate the source
exponential from the formula claimed in the spec. -/
def offExample : M2 := ⟨0, 1, 0, 0⟩

/-- C1 counterexample: on `A = [[0,1],[0,0]]` (trace 0, delta 0, so the
`factor = 0.5` fallback fires in both formulas) the source
`matrix_exponential` returns off-diagonal entry `1`, while the claimed
closed form returns `0.5`; the two disagree. -/
theorem c1_counterexample :
    matrix_exponential offExample ≠ matrix_exponential_claimed offExample := by
  have hdelta : (offExample.e00 - offExample.e11) ^ 2 +
      4 * offExample.e01 * offExample.e10 = 0 := by
    simp [offExample]
  have hfac : exp_factor offExample = 1 / 2 := by
    rw [exp_factor]
    simp only [hdelta, csqrt_zero, ne_eq, not_true_eq_false, if_false]
  have h1 : (matrix_exponential offExample).e01 = 1 := by
    rw [matrix_exponential]
    simp only [hdelta, csqrt_zero, ne_eq, not_true_eq_false, if_false]
    simp [offExample]
  have h2 : (matrix_exponential_claimed offExample).e01 = 1 / 2 := by
    rw [matrix_exponential_claimed]
    simp only [hdelta, csqrt_zero, hfac]
    simp [M2.smul, M2.add, M2.sub, M2.one, offExample]
  intro h
  rw [h, h2] at h1
  norm_num at h1

/-- C1 amended: the source `matrix_exponential` equals the spec
closed form with the off-diagonal entries of the `factor` term doubled:
`exp(t/2)·[cosh(sqrt(delta)/2)·I + factor·offDouble(A - (t/2)·I)]`. -/
theorem c1_matrix_exponential_amended (a : M2) :
    matrix_exponential a =
      M2.smul (Complex.exp ((a.e00 + a.e11) / 2))
        (M2.add
          (M2.smul (Complex.cosh (csqrt ((a.e00 - a.e11) ^ 2 + 4 * a.e01 * a.e10) / 2)) M2.one)
          (M2.smul (exp_factor a)
            (M2.offDouble (M2.sub a (M2.smul ((a.e00 + a.e11) / 2) M2.one))))) := by
  rw [matrix_exponential, exp_factor]
  ext <;> simp only [M2.smul, M2.add, M2.sub, M2.one, M2.offDouble] <;> ring

/-- Square root of `-pi^2` under the embedded principal square root:
`pi * I`. -/
theorem csqrt_neg_pi_sq :
    csqrt ((-(Real.pi ^ 2) : ℝ) : ℂ) = (Real.pi : ℂ) * Complex.I := by
  rw [csqrt, Complex.abs_ofReal,
    Complex.arg_ofReal_of_neg (neg_neg_iff_pos.mpr (by positivity)),
    abs_neg, abs_of_nonneg (sq_nonneg Real.pi), Real.sqrt_sq Real.pi_pos.le,
    Complex.exp_mul_I, ← Complex.ofReal_cos, ← Complex.ofReal_sin,
    Real.cos_pi_div_two, Real.sin_pi_div_two]
  simp

/-- Exponential of `-(pi/2)*I` is `-I`. -/
theorem exp_neg_pi_half_I :
    Complex.exp ((0 + -(Real.pi : ℂ) * Complex.I) / 2) = -Complex.I := by
  have h : (0 + -(Real.pi : ℂ) * Complex.I) / 2 =
      ((-(Real.pi / 2) : ℝ) : ℂ) * Complex.I := by
    push_cast; ring
  rw [h, Complex.exp_mul_I, ← Complex.ofReal_cos, ← Complex.ofReal_sin]
  simp [Real.cos_pi_div_two, Real.sin_pi_div_two]

/-- Exact evaluation of the source closed-form exponential at the
diagonal generator `diag(0, -i*pi)`: the result is `diag(1/2, -1/2)`,
not the true exponential `diag(1, -1)`. -/
theorem matrix_exponential_diag_neg_pi :
    matrix_exponential ⟨0, 0, 0, -(Real.pi : ℂ) * Complex.I⟩ =
      ⟨1 / 2, 0, 0, -(1 / 2)⟩ := by
  have hdelta : ((0 : ℂ) - -(Real.pi : ℂ) * Complex.I) ^ 2 + 4 * 0 * 0 =
      ((-(Real.pi ^ 2) : ℝ) : ℂ) := by
    push_cast
    ring_nf
    rw [Complex.I_sq]
    ring
  have hne : (Real.pi : ℂ) * Complex.I ≠ 0 := by
    simp [Complex.ext_iff, Real.pi_ne_zero]
  have hdiv2 : (Real.pi : ℂ) * Complex.I / 2 = ((Real.pi / 2 : ℝ) : ℂ) * Complex.I := by
    push_cast; ring
  have hch : Complex.cosh ((Real.pi : ℂ) * Complex.I / 2) = 0 := by
    rw [hdiv2, Complex.cosh_mul_I, ← Complex.ofReal_cos, Real.cos_pi_div_two]
    simp
  have hsh : Complex.sinh ((Real.pi : ℂ) * Complex.I / 2) = Complex.I := by
    rw [hdiv2, Complex.sinh_mul_I, ← Complex.ofReal_sin, Real.sin_pi_div_two]
    simp
  rw [matrix_exponential]
  simp only [hdelta, csqrt_neg_pi_sq, hch, hsh, exp_neg_pi_half_I, ne_eq, hne,
    not_false_eq_true, if_true, M2.mk.injEq]
  refine ⟨?_, ?_, ?_, ?_⟩
  · field_simp
  · ring
  · ring
  · field_simp

/-- C2: for `H = diag(0, 1)`, `dt = pi`, `hbar = 1` the closed-form
strategy computes `U = diag(1/2, -1/2)` exactly, whereas the claim (and
the true exponential) require `diag(1, -1)`; the error `1/2` far
exceeds the documented tolerance `1e-6`. -/
theorem c2_time_evolution_operator_bug :
    time_evolution_operator ⟨0, 0, 0, 1⟩ Real.pi 1 = ⟨1 / 2, 0, 0, -(1 / 2)⟩ ∧
      (1 : ℂ) / 2 ≠ 1 ∧ (1e-6 : ℝ) < Complex.abs ((1 : ℂ) / 2 - 1) := by
  refine ⟨?_, by norm_num, ?_⟩
  · rw [time_evolution_operator]
    have hmk : (⟨0, -Real.pi / 1⟩ : ℂ) = -(Real.pi : ℂ) * Complex.I := by
      simp [Complex.ext_iff]
    show matrix_exponential
        ⟨0 * ⟨0, -Real.pi / 1⟩, 0 * ⟨0, -Real.pi / 1⟩,
          0 * ⟨0, -Real.pi / 1⟩, 1 * ⟨0, -Real.pi / 1⟩⟩ = _
    rw [hmk]
    norm_num
    have hme := matrix_exponential_diag_neg_pi
    rw [neg_mul] at hme
    exact hme
  · have h : (1 : ℂ) / 2 - 1 = ((-(1 / 2) : ℝ) : ℂ) := by norm_num
    rw [h, Complex.abs_ofReal, abs_neg, abs_of_pos (by norm_num : (0:ℝ) < 1 / 2)]
    norm_num

end QGP

/-- Generic dense matrix with runtime-checked dimensions, mirroring
`nalgebra::DMatrix`, `ndarray::Array2` and the hand-rolled `Matrix`
struct of fock: a shape together with an entry function.  Positions
outside the shape carry the fill value of `zeros`, matching the
zero-initialised buffers the sources allocate. -/
structure GMat (α : Type) where
  rows : ℕ
  cols : ℕ
  entry : ℕ → ℕ → α

namespace GMat

/-- Functional meaning of the single assignment `result[(r, c)] = v`. -/
def set (m : GMat α) (r c : ℕ) (v : α) : GMat α :=
  ⟨m.rows, m.cols, fun i j => if i = r ∧ j = c then v else m.entry i j⟩

/-- A rows-by-cols matrix filled with `z` (the `zeros` constructor). -/
def fill (r c : ℕ) (z : α) : GMat α := ⟨r, c, fun _ _ => z⟩

/-- Folding assignments over a list never changes the shape. -/
theorem foldl_set_shape {α β : Type} (p q : β → ℕ) (v : β → α) :
    ∀ (L : List β) (m0 : GMat α),
      ((L.foldl (fun m x => m.set (p x) (q x) (v x)) m0)).rows = m0.rows ∧
      ((L.foldl (fun m x => m.set (p x) (q x) (v x)) m0)).cols = m0.cols := by
  intro L
  induction L with
  | nil => intro m0; exact ⟨rfl, rfl⟩
  | cons y T ih =>
      intro m0
      simpa [List.foldl_cons, GMat.set] using ih (m0.set (p y) (q y) (v y))

/-- A fold of assignments that never touches position `(r, c)` leaves
that entry unchanged. -/
theorem foldl_set_entry_of_unwritten {α β : Type} (p q : β → ℕ) (v : β → α) (r c : ℕ) :
    ∀ (L : List β) (m0 : GMat α), (∀ x ∈ L, ¬(p x = r ∧ q x = c)) →
      ((L.foldl (fun m x => m.set (p x) (q x) (v x)) m0)).entry r c = m0.entry r c := by
  intro L
  induction L with
  | nil => intro m0 _; rfl
  | cons y T ih =>
      intro m0 h
      rw [List.foldl_cons, ih _ (fun x hx => h x (List.mem_cons_of_mem y hx))]
      simp only [GMat.set]
      rw [if_neg (fun hc => h y (List.mem_cons_self y T) ⟨hc.1.symm, hc.2.symm⟩)]

/-- A fold of assignments writes position `(r, c)` to the common value
of all list elements targeting that position, provided at least one
element does target it. -/
theorem foldl_set_entry_of_written {α β : Type} (p q : β → ℕ) (v : β → α) (r c : ℕ) :
    ∀ (L : List β) (m0 : GMat α) (x : β), x ∈ L → p x = r → q x = c →
      (∀ y ∈ L, p y = r → q y = c → v y = v x) →
      ((L.foldl (fun m x => m.set (p x) (q x) (v x)) m0)).entry r c = v x := by
  intro L
  induction L with
  | nil => intro m0 x hx; exact absurd hx (List.not_mem_nil x)
  | cons y T ih =>
      intro m0 x hx hpr hqc hagree
      rw [List.foldl_cons]
      by_cases h : ∃ z ∈ T, p z = r ∧ q z = c
      · obtain ⟨z, hz, hzr, hzc⟩ := h
        have hvz : v z = v x := hagree z (List.mem_cons_of_mem y hz) hzr hzc
        rw [ih _ z hz hzr hzc ?_ , hvz]
        intro w hw hwr hwc
        rw [hagree w (List.mem_cons_of_mem y hw) hwr hwc, hvz]
      · push_neg at h
        rw [foldl_set_entry_of_unwritten p q v r c T _ ?_]
        · simp only [GMat.set]
          rcases List.mem_cons.mp hx with hxy | hxT
          · subst hxy
            rw [if_pos ⟨hpr.symm, hqc.symm⟩]
          · exact absurd hqc (h x hxT hpr)
        · intro w hw hcon
          exact h w hw hcon.1 hcon.2

end GMat

/-- The quadruple-nested index loop of the Kronecker-product routines,
as a single flat index list (row of `a`, column of `a`, row of `b`,
column of `b`). -/
def kronIdx {α : Type} (a b : GMat α) : List (ℕ × ℕ × ℕ × ℕ) :=
  (List.range a.rows).flatMap fun i =>
    (List.range a.cols).flatMap fun j =>
      (List.range b.rows).flatMap fun k =>
        (List.range b.cols).map fun l => (i, j, k, l)

/-- Shared shape of `kronecker_product` (compactify/src/main.rs, lines
274-293) and `QuantumSystem::tensor_product_matrix` (fock/src/main.rs,
lines 505-522): allocate an `(r_a*r_b) x (c_a*c_b)` zero matrix and,
looping over `i, j, k, l`, assign
`result[(i*r_b+k, j*c_b+l)] = a[i,j] * b[k,l]`.  The scalar type and
its multiplication are parameters because the two crates use different
complex-number representations. -/
def kronFold {α : Type} (z : α) (mul : α → α → α) (a b : GMat α) : GMat α :=
  (kronIdx a b).foldl
    (fun m t => m.set (t.1 * b.rows + t.2.2.1) (t.2.1 * b.cols + t.2.2.2)
      (mul (a.entry t.1 t.2.1) (b.entry t.2.2.1 t.2.2.2)))
    (GMat.fill (a.rows * b.rows) (a.cols * b.cols) z)

/-- Shape of the Kronecker product: `(r_a*r_b, c_a*c_b)`. -/
theorem kronFold_shape {α : Type} (z : α) (mul : α → α → α) (a b : GMat α) :
    (kronFold z mul a b).rows = a.rows * b.rows ∧
    (kronFold z mul a b).cols = a.cols * b.cols :=
  GMat.foldl_set_shape _ _ _ (kronIdx a b) (GMat.fill (a.rows * b.rows) (a.cols * b.cols) z)

/-- Membership description of the flattened Kronecker index list. -/
theorem mem_kronIdx {α : Type} (a b : GMat α) (t : ℕ × ℕ × ℕ × ℕ) :
    t ∈ kronIdx a b ↔
      t.1 < a.rows ∧ t.2.1 < a.cols ∧ t.2.2.1 < b.rows ∧ t.2.2.2 < b.cols := by
  obtain ⟨i, j, k, l⟩ := t
  simp [kronIdx, List.mem_flatMap, List.mem_map, List.mem_range]
  constructor
  · rintro ⟨i1, hi1, j1, hj1, k1, hk1, l1, hl1, h1, h2, h3, h4⟩
    subst h1; subst h2; subst h3; subst h4
    exact ⟨hi1, hj1, hk1, hl1⟩
  · rintro ⟨hi, hj, hk, hl⟩
    exact ⟨i, hi, j, hj, k, hk, l, hl, rfl, rfl, rfl, rfl⟩

/-- Element formula of the Kronecker product: the entry at
`(i*r_b+k, j*c_b+l)` is `a[i,j] * b[k,l]`. -/
theorem kronFold_entry {α : Type} (z : α) (mul : α → α → α) (a b : GMat α)
    (i j k l : ℕ) (hi : i < a.rows) (hj : j < a.cols) (hk : k < b.rows) (hl : l < b.cols) :
    (kronFold z mul a b).entry (i * b.rows + k) (j * b.cols + l) =
      mul (a.entry i j) (b.entry k l) := by
  have hbr : 0 < b.rows := lt_of_le_of_lt (Nat.zero_le k) hk
  have hbc : 0 < b.cols := lt_of_le_of_lt (Nat.zero_le l) hl
  refine GMat.foldl_set_entry_of_written _ _ _ _ _ (kronIdx a b) _ (i, j, k, l)
    ((mem_kronIdx a b (i, j, k, l)).mpr ⟨hi, hj, hk, hl⟩) rfl rfl ?_
  rintro ⟨i1, j1, k1, l1⟩ hmem hpr hqc
  obtain ⟨hi1, hj1, hk1, hl1⟩ := (mem_kronIdx a b (i1, j1, k1, l1)).mp hmem
  simp only at hpr hqc hi1 hj1 hk1 hl1 ⊢
  have hii : i1 = i ∧ k1 = k := by
    constructor
    · have h1 : (i1 * b.rows + k1) / b.rows = i1 := by
        rw [Nat.mul_comm i1 b.rows, Nat.mul_add_div hbr, Nat.div_eq_of_lt hk1, Nat.add_zero]
      have h2 : (i * b.rows + k) / b.rows = i := by
        rw [Nat.mul_comm i b.rows, Nat.mul_add_div hbr, Nat.div_eq_of_lt hk, Nat.add_zero]
      rw [← h1, ← h2, hpr]
    · have h1 : (i1 * b.rows + k1) % b.rows = k1 := by
        rw [Nat.mul_comm i1 b.rows, Nat.mul_add_mod, Nat.mod_eq_of_lt hk1]
      have h2 : (i * b.rows + k) % b.rows = k := by
        rw [Nat.mul_comm i b.rows, Nat.mul_add_mod, Nat.mod_eq_of_lt hk]
      rw [← h1, ← h2, hpr]
  have hjj : j1 = j ∧ l1 = l := by
    constructor
    · have h1 : (j1 * b.cols + l1) / b.cols = j1 := by
        rw [Nat.mul_comm j1 b.cols, Nat.mul_add_div hbc, Nat.div_eq_of_lt hl1, Nat.add_zero]
      have h2 : (j * b.cols + l) / b.cols = j := by
        rw [Nat.mul_comm j b.cols, Nat.mul_add_div hbc, Nat.div_eq_of_lt hl, Nat.add_zero]
      rw [← h1, ← h2, hqc]
    · have h1 : (j1 * b.cols + l1) % b.cols = l1 := by
        rw [Nat.mul_comm j1 b.cols, Nat.mul_add_mod, Nat.mod_eq_of_lt hl1]
      have h2 : (j * b.cols + l) % b.cols = l := by
        rw [Nat.mul_comm j b.cols, Nat.mul_add_mod, Nat.mod_eq_of_lt hl]
      rw [← h1, ← h2, hqc]
  rw [hii.1, hii.2, hjj.1, hjj.2]

/-- Summation loops `sum += f(k)` over `0..n` starting from zero. -/
theorem foldl_add_eq_sum (f : ℕ → ℂ) :
    ∀ (n : ℕ), (List.range n).foldl (fun s k => s + f k) 0 = ∑ k ∈ Finset.range n, f k := by
  intro n
  induction n with
  | zero => rfl
  | succ m ih =>
      rw [List.range_succ, List.foldl_append, ih, Finset.sum_range_succ]
      rfl

namespace Cpt

/-- Embedding of `kronecker_product` (compactify/src/main.rs, lines
274-293) over `ℂ`. -/
def kronecker_product (a b : GMat ℂ) : GMat ℂ := kronFold 0 (fun x y => x * y) a b

/-- Dense complex vector (`nalgebra::DVector<Complex<f64>>`): a length
plus an element function (zero outside the length, as in `zeros`). -/
structure CVec where
  len : ℕ
  get : ℕ → ℂ

/-- Construction of the joint density matrix `rho_joint = psi psi^dag`
inside `split_joint_state` (compactify/src/main.rs, lines 322-327):
`rho[i,j] = psi_i * conj(psi_j)`. -/
def rho_joint (psi : CVec) : GMat ℂ :=
  ⟨psi.len, psi.len, fun i j =>
    if i < psi.len ∧ j < psi.len then psi.get i * (starRingEnd ℂ) (psi.get j) else 0⟩

/-- Embedding of the first marginal loop of `split_joint_state`
(compactify/src/main.rs, lines 334-345): for each in-bounds `(i, j)`
the accumulator `sum_a += rho_joint[[i*dim+k, j*dim+k]]` runs over
`k in 0..dim`; out-of-bounds entries keep the `zeros` fill. -/
def marginal_a (rho : GMat ℂ) (dim : ℕ) : GMat ℂ :=
  ⟨dim, dim, fun i j =>
    if i < dim ∧ j < dim then
      (List.range dim).foldl (fun s k => s + rho.entry (i * dim + k) (j * dim + k)) 0
    else 0⟩

/-- Embedding of the second marginal loop of `split_joint_state`:
`sum_b += rho_joint[[k*dim+i, k*dim+j]]` over `k in 0..dim`. -/
def marginal_b (rho : GMat ℂ) (dim : ℕ) : GMat ℂ :=
  ⟨dim, dim, fun i j =>
    if i < dim ∧ j < dim then
      (List.range dim).foldl (fun s k => s + rho.entry (k * dim + i) (k * dim + j)) 0
    else 0⟩

/-- Embedding of the re-Hermitization step
`rho = (&rho + &rho.t().mapv(conj)) * Complex::from(0.5)`
(compactify/src/main.rs, lines 347-349). -/
noncomputable def hermitize (m : GMat ℂ) : GMat ℂ :=
  ⟨m.rows, m.cols, fun i j =>
    if i < m.rows ∧ j < m.cols then
      (m.entry i j + (starRingEnd ℂ) (m.entry j i)) * (1 / 2)
    else 0⟩

/-- The two marginal density matrices `split_joint_state` computes and
then hands to the eigendecomposition: partial traces of
`|psi><psi|`, each re-Hermitized.  (The remaining eigenvector
extraction calls LAPACK through `ndarray-linalg` and is outside the
embedded kernel.) -/
noncomputable def split_joint_state_marginals (psi : CVec) (dim : ℕ) : GMat ℂ × GMat ℂ :=
  (hermitize (marginal_a (rho_joint psi) dim), hermitize (marginal_b (rho_joint psi) dim))

/-- C3: the partial-trace routine computes
`rho_A[i,j] = sum_k rho_joint[i*d+k, j*d+k]` and
`rho_B[i,j] = sum_k rho_joint[k*d+i, k*d+j]`, and the marginals it
returns for further use are exactly the `(M + M^dag)/2`
re-Hermitizations of those sums. -/
theorem c3_split_joint_state_marginals (rho : GMat ℂ) (dim i j : ℕ)
    (hi : i < dim) (hj : j < dim) :
    (marginal_a rho dim).entry i j =
        ∑ k ∈ Finset.range dim, rho.entry (i * dim + k) (j * dim + k) ∧
      (marginal_b rho dim).entry i j =
        ∑ k ∈ Finset.range dim, rho.entry (k * dim + i) (k * dim + j) ∧
      ∀ psi : CVec, split_joint_state_marginals psi dim =
        (hermitize (marginal_a (rho_joint psi) dim),
          hermitize (marginal_b (rho_joint psi) dim)) := by
  refine ⟨?_, ?_, fun _ => rfl⟩
  · rw [marginal_a]
    dsimp only
    rw [if_pos (show i < dim ∧ j < dim from ⟨hi, hj⟩), foldl_add_eq_sum]
  · rw [marginal_b]
    dsimp only
    rw [if_pos (show i < dim ∧ j < dim from ⟨hi, hj⟩), foldl_add_eq_sum]

/-- Concrete joint matrix used to instantiate `C3`. -/
def rhoExample : GMat ℂ := ⟨4, 4, fun i j => (i : ℂ) + 2 * j⟩

/-- Witness for C3 at `dim = 2`, `i = 0`, `j = 1`. -/
theorem c3_witness :
    (0 : ℕ) < 2 ∧ (1 : ℕ) < 2 ∧
      ((marginal_a rhoExample 2).entry 0 1 =
          ∑ k ∈ Finset.range 2, rhoExample.entry (0 * 2 + k) (1 * 2 + k) ∧
        (marginal_b rhoExample 2).entry 0 1 =
          ∑ k ∈ Finset.range 2, rhoExample.entry (k * 2 + 0) (k * 2 + 1) ∧
        ∀ psi : CVec, split_joint_state_marginals psi 2 =
          (hermitize (marginal_a (rho_joint psi) 2),
            hermitize (marginal_b (rho_joint psi) 2))) :=
  ⟨by norm_num, by norm_num,
    c3_split_joint_state_marginals rhoExample 2 0 1 (by norm_num) (by norm_num)⟩

/-- C5: tracing out subsystem B from the Kronecker product of a
d-by-d Hermitian matrix `rho_A` with a d-by-d matrix `rho_B` of trace
one gives back `rho_A` exactly on every in-bounds entry, both before
and after the re-Hermitization step.  (Hermiticity of `rho_B` and
the unit trace of `rho_A` are part of the claim hypothesis but are
not needed.) -/
theorem c5_trace_out_product_state (d : ℕ) (rhoA rhoB : GMat ℂ)
    (hAr : rhoA.rows = d) (hAc : rhoA.cols = d)
    (hBr : rhoB.rows = d) (hBc : rhoB.cols = d)
    (hAherm : ∀ i j, (starRingEnd ℂ) (rhoA.entry j i) = rhoA.entry i j)
    (hBtrace : ∑ k ∈ Finset.range d, rhoB.entry k k = 1)
    (i j : ℕ) (hi : i < d) (hj : j < d) :
    (marginal_a (kronecker_product rhoA rhoB) d).entry i j = rhoA.entry i j ∧
      (hermitize (marginal_a (kronecker_product rhoA rhoB) d)).entry i j =
        rhoA.entry i j := by
  have key : ∀ i1 j1, i1 < d → j1 < d →
      (marginal_a (kronecker_product rhoA rhoB) d).entry i1 j1 = rhoA.entry i1 j1 := by
    intro i1 j1 hi1 hj1
    rw [marginal_a]
    dsimp only
    rw [if_pos (show i1 < d ∧ j1 < d from ⟨hi1, hj1⟩), foldl_add_eq_sum]
    have hterm : ∀ k ∈ Finset.range d,
        (kronecker_product rhoA rhoB).entry (i1 * d + k) (j1 * d + k) =
          rhoA.entry i1 j1 * rhoB.entry k k := by
      intro k hk
      have hkd : k < d := Finset.mem_range.mp hk
      have := kronFold_entry 0 (fun x y => x * y) rhoA rhoB i1 j1 k k
        (hAr ▸ hi1) (hAc ▸ hj1) (hBr ▸ hkd) (hBc ▸ hkd)
      rw [kronecker_product]
      rw [hBr, hBc] at this
      exact this
    rw [Finset.sum_congr rfl hterm, ← Finset.mul_sum, hBtrace, mul_one]
  refine ⟨key i j hi hj, ?_⟩
  rw [hermitize]
  dsimp only
  rw [if_pos (show i < (marginal_a (kronecker_product rhoA rhoB) d).rows ∧
    j < (marginal_a (kronecker_product rhoA rhoB) d).cols from ⟨hi, hj⟩)]
  rw [key i j hi hj, key j i hj hi, hAherm i j]
  ring

/-- Concrete one-dimensional density matrices used to instantiate C5. -/
def rhoAOne : GMat ℂ := ⟨1, 1, fun _ _ => 1⟩

/-- Witness for C5 at `d = 1` with both factors the 1x1 density
matrix `[[1]]`. -/
theorem c5_witness :
    (∀ i j, (starRingEnd ℂ) (rhoAOne.entry j i) = rhoAOne.entry i j) ∧
      (∑ k ∈ Finset.range 1, rhoAOne.entry k k = 1) ∧
      ((marginal_a (kronecker_product rhoAOne rhoAOne) 1).entry 0 0 =
          rhoAOne.entry 0 0 ∧
        (hermitize (marginal_a (kronecker_product rhoAOne rhoAOne) 1)).entry 0 0 =
          rhoAOne.entry 0 0) := by
  refine ⟨fun i j => by simp [rhoAOne], by simp [rhoAOne], ?_⟩
  exact c5_trace_out_product_state 1 rhoAOne rhoAOne rfl rfl rfl rfl
    (fun i j => by simp [rhoAOne]) (by simp [rhoAOne]) 0 0 (by norm_num) (by norm_num)

end Cpt

namespace FP

/-- Idealised model of an IEEE-754 `f64`: an exact real number, a signed
infinity, or NaN.  Finite arithmetic is exact (no rounding) and signed
zero is not distinguished; only the special-value propagation rules
relevant to the embedded code paths are modelled. -/
inductive F where
  | fin (x : ℝ) : F
  | inf : F
  | neginf : F
  | nan : F

namespace F

/-- IEEE addition on the float model. -/
noncomputable def add : F → F → F
  | nan, _ => nan
  | _, nan => nan
  | fin a, fin b => fin (a + b)
  | fin _, inf => inf
  | inf, fin _ => inf
  | fin _, neginf => neginf
  | neginf, fin _ => neginf
  | inf, inf => inf
  | neginf, neginf => neginf
  | inf, neginf => nan
  | neginf, inf => nan

/-- IEEE negation on the float model. -/
noncomputable def neg : F → F
  | nan => nan
  | fin a => fin (-a)
  | inf => neginf
  | neginf => inf

/-- IEEE subtraction, as addition of the negation. -/
noncomputable def sub (a b : F) : F := add a (neg b)

/-- IEEE multiplication on the float model; `0 * inf = nan`. -/
noncomputable def mul : F → F → F
  | nan, _ => nan
  | _, nan => nan
  | fin a, fin b => fin (a * b)
  | fin a, inf => if a = 0 then nan else if 0 < a then inf else neginf
  | inf, fin a => if a = 0 then nan else if 0 < a then inf else neginf
  | fin a, neginf => if a = 0 then nan else if 0 < a then neginf else inf
  | neginf, fin a => if a = 0 then nan else if 0 < a then neginf else inf
  | inf, inf => inf
  | inf, neginf => neginf
  | neginf, inf => neginf
  | neginf, neginf => inf

/-- IEEE division on the float model; `0/0 = nan`, `x/0 = ±inf` for
finite nonzero `x` (unsigned zero, so the sign of `x` decides). -/
noncomputable def div : F → F → F
  | nan, _ => nan
  | _, nan => nan
  | fin a, fin b =>
      if b = 0 then (if a = 0 then nan else if 0 < a then inf else neginf)
      else fin (a / b)
  | fin _, inf => fin 0
  | fin _, neginf => fin 0
  | inf, fin a => if 0 ≤ a then inf else neginf
  | neginf, fin a => if 0 ≤ a then neginf else inf
  | inf, inf => nan
  | inf, neginf => nan
  | neginf, inf => nan
  | neginf, neginf => nan

/-- IEEE square root on the float model; negative arguments give NaN. -/
noncomputable def sqrt : F → F
  | nan => nan
  | fin a => if a < 0 then nan else fin (Real.sqrt a)
  | inf => inf
  | neginf => nan

@[simp] theorem add_nan (x : F) : add x nan = nan := by cases x <;> rfl

@[simp] theorem nan_add (x : F) : add nan x = nan := by cases x <;> rfl

@[simp] theorem sub_nan (x : F) : sub x nan = nan := by cases x <;> rfl

@[simp] theorem nan_sub (x : F) : sub nan x = nan := by cases x <;> rfl

@[simp] theorem mul_nan (x : F) : mul x nan = nan := by cases x <;> rfl

@[simp] theorem nan_mul (x : F) : mul nan x = nan := by cases x <;> rfl

@[simp] theorem div_nan (x : F) : div x nan = nan := by cases x <;> rfl

@[simp] theorem nan_div (x : F) : div nan x = nan := by cases x <;> rfl

@[simp] theorem sqrt_nan : sqrt nan = nan := rfl

@[simp] theorem add_fin (a b : ℝ) : add (fin a) (fin b) = fin (a + b) := rfl

@[simp] theorem mul_fin (a b : ℝ) : mul (fin a) (fin b) = fin (a * b) := rfl

@[simp] theorem neg_fin (a : ℝ) : neg (fin a) = fin (-a) := rfl

@[simp] theorem sub_fin (a b : ℝ) : sub (fin a) (fin b) = fin (a + -b) := rfl

/-- Division of finite floats with nonzero divisor is exact. -/
theorem div_fin_of_ne (a b : ℝ) (hb : b ≠ 0) : div (fin a) (fin b) = fin (a / b) := by
  rw [div]
  simp [hb]

/-- Multiplication of an exact zero by infinity is NaN. -/
@[simp] theorem zero_mul_inf : mul (fin 0) inf = nan := by
  rw [mul]
  simp

/-- Division of one by an exact zero overflows to `inf`. -/
@[simp] theorem one_div_zero : div (fin 1) (fin 0) = inf := by
  rw [div]
  norm_num

/-- Square root of an exact nonnegative value. -/
theorem sqrt_fin_of_nonneg (a : ℝ) (ha : 0 ≤ a) : sqrt (fin a) = fin (Real.sqrt a) := by
  rw [sqrt]
  simp [not_lt.mpr ha]

end F

/-- The hand-rolled complex-number struct of fock (`re`, `im`), over
modelled floats. -/
structure Cplx where
  re : F
  im : F

namespace Cplx

/-- Embedding of the fock `Complex::conj`. -/
noncomputable def conj (c : Cplx) : Cplx := ⟨c.re, F.neg c.im⟩

/-- Embedding of the fock `Complex::mul`
(`(re*re - im*im, re*im + im*re)`); identical formula in
`num_complex`. -/
noncomputable def mul (a b : Cplx) : Cplx :=
  ⟨F.sub (F.mul a.re b.re) (F.mul a.im b.im),
    F.add (F.mul a.re b.im) (F.mul a.im b.re)⟩

/-- Embedding of the fock `Complex::add`. -/
noncomputable def add (a b : Cplx) : Cplx := ⟨F.add a.re b.re, F.add a.im b.im⟩

/-- The zero complex float (`Complex::new(0.0, 0.0)`). -/
def zero : Cplx := ⟨F.fin 0, F.fin 0⟩

/-- A complex float with NaN in both components. -/
def nanC : Cplx := ⟨F.nan, F.nan⟩

/-- Multiplying anything by an all-NaN complex float yields all-NaN. -/
@[simp] theorem mul_nanC (c : Cplx) : mul c nanC = nanC := by
  simp [mul, nanC]

@[simp] theorem nanC_mul (c : Cplx) : mul nanC c = nanC := by
  simp [mul, nanC]

@[simp] theorem add_nanC (c : Cplx) : add c nanC = nanC := by
  simp [add, nanC]

@[simp] theorem nanC_add (c : Cplx) : add nanC c = nanC := by
  simp [add, nanC]

end Cplx

end FP

namespace Fock

open FP

/-- Embedding of the fock `Vector`: a list of complex floats
(`data: Vec<Complex>`). -/
structure FVec where
  data : List Cplx

/-- Vector dimension (`data.len()`). -/
def FVec.dim (v : FVec) : ℕ := v.data.length

/-- Vector indexing; only in-bounds positions are ever read by the
embedded code (`Vec` indexing panics out of bounds). -/
def FVec.get (v : FVec) (i : ℕ) : Cplx := v.data.getD i Cplx.zero

/-- Embedding of `Vector::inner_product` (fock/src/main.rs, lines
179-185): `sum = sum + conj(self[i]) * other[i]` over `0..dim`. -/
noncomputable def inner_product (a b : FVec) : Cplx :=
  (List.range a.dim).foldl
    (fun s i => Cplx.add s (Cplx.mul (Cplx.conj (a.get i)) (b.get i))) Cplx.zero

/-- Embedding of `Vector::mul_scalar`: multiply every component by the
complex scalar. -/
noncomputable def mul_scalar (v : FVec) (s : Cplx) : FVec :=
  ⟨v.data.map (fun c => Cplx.mul c s)⟩

/-- Embedding of `Vector::normalize` (fock/src/main.rs, lines 187-192):
`norm = sqrt(inner_product(v, v).re)` followed by
`mul_scalar(Complex::new(1.0 / norm, 0.0))`.  There is no zero-norm
guard. -/
noncomputable def normalize (v : FVec) : FVec :=
  let norm := F.sqrt (inner_product v v).re
  mul_scalar v ⟨F.div (F.fin 1) norm, F.fin 0⟩

/-- The one-dimensional zero vector. -/
def zeroVec1 : FVec := ⟨[Cplx.zero]⟩

/-- C6 counterexample: normalizing the zero vector does not fail — the
routine has no zero-norm guard — and both components of the result are
NaN (`0 * (1/0) = 0 * inf = NaN`), silently. -/
theorem c6_counterexample : (normalize zeroVec1).data = [Cplx.nanC] := by
  have hinner : inner_product zeroVec1 zeroVec1 = Cplx.zero := by
    rw [inner_product]
    show List.foldl _ Cplx.zero (List.range 1) = Cplx.zero
    rw [show List.range 1 = [0] from rfl, List.foldl_cons, List.foldl_nil]
    show Cplx.add Cplx.zero
      (Cplx.mul (Cplx.conj (FVec.get zeroVec1 0)) (FVec.get zeroVec1 0)) = Cplx.zero
    show Cplx.add Cplx.zero (Cplx.mul (Cplx.conj Cplx.zero) Cplx.zero) = Cplx.zero
    simp [Cplx.conj, Cplx.mul, Cplx.add, Cplx.zero]
  rw [normalize, hinner]
  show (mul_scalar zeroVec1 ⟨F.div (F.fin 1) (F.sqrt (F.fin 0)), F.fin 0⟩).data = _
  rw [F.sqrt_fin_of_nonneg 0 le_rfl, Real.sqrt_zero, F.one_div_zero]
  rw [mul_scalar]
  show List.map (fun c => Cplx.mul c ⟨F.inf, F.fin 0⟩) [Cplx.zero] = [Cplx.nanC]
  rw [List.map_cons, List.map_nil]
  have : Cplx.mul Cplx.zero ⟨F.inf, F.fin 0⟩ = Cplx.nanC := by
    simp [Cplx.mul, Cplx.zero, Cplx.nanC]
  rw [this]

/-- The all-zero vector of dimension `n`. -/
def zeroVecN (n : ℕ) : FVec := ⟨List.replicate n Cplx.zero⟩

/-- The inner product of the all-zero vector with itself is the exact
complex zero. -/
theorem inner_product_zeroVecN (n : ℕ) :
    inner_product (zeroVecN n) (zeroVecN n) = Cplx.zero := by
  rw [inner_product]
  have hget : ∀ i, (zeroVecN n).get i = Cplx.zero := by
    intro i
    show (List.replicate n Cplx.zero).getD i Cplx.zero = Cplx.zero
    rw [List.getD_eq_getElem?_getD, List.getElem?_replicate]
    split <;> rfl
  have : ∀ (L : List ℕ),
      L.foldl (fun s i => Cplx.add s
        (Cplx.mul (Cplx.conj ((zeroVecN n).get i)) ((zeroVecN n).get i))) Cplx.zero
        = Cplx.zero := by
    intro L
    induction L with
    | nil => rfl
    | cons y T ih =>
        rw [List.foldl_cons, hget y]
        have hz : Cplx.add Cplx.zero (Cplx.mul (Cplx.conj Cplx.zero) Cplx.zero) =
            Cplx.zero := by
          simp [Cplx.conj, Cplx.mul, Cplx.add, Cplx.zero]
        rw [hz]
        exact ih
  exact this (List.range (zeroVecN n).dim)

/-- When the computed norm is a finite nonzero real `x` and the vector
components are finite, `normalize` returns the componentwise division
of `v` by `x` (multiplying by the reciprocal and dividing agree exactly
in the idealised model). -/
theorem normalize_div_of_fin (v : FVec) (x : ℝ)
    (hx : F.sqrt (inner_product v v).re = F.fin x) (hxne : x ≠ 0)
    (hfin : ∀ c ∈ v.data, ∃ a b : ℝ, c = ⟨F.fin a, F.fin b⟩) :
    normalize v = ⟨v.data.map (fun c => ⟨F.div c.re (F.fin x), F.div c.im (F.fin x)⟩)⟩ := by
  rw [normalize, hx, F.div_fin_of_ne 1 x hxne, mul_scalar]
  congr 1
  refine List.map_congr_left ?_
  intro c hc
  obtain ⟨a, b, rfl⟩ := hfin c hc
  show Cplx.mul ⟨F.fin a, F.fin b⟩ ⟨F.fin (1 / x), F.fin 0⟩ = _
  rw [Cplx.mul]
  simp only [F.mul_fin, F.sub_fin, F.add_fin]
  rw [F.div_fin_of_ne a x hxne, F.div_fin_of_ne b x hxne]
  have h1 : a * (1 / x) + -(b * 0) = a / x := by field_simp
  have h2 : a * 0 + b * (1 / x) = b / x := by field_simp
  rw [h1, h2]

/-- Normalizing the all-zero vector of any dimension silently produces
all-NaN components. -/
theorem normalize_zeroVecN (n : ℕ) :
    (normalize (zeroVecN n)).data = List.replicate n Cplx.nanC := by
  rw [normalize, inner_product_zeroVecN]
  show (mul_scalar (zeroVecN n) ⟨F.div (F.fin 1) (F.sqrt (F.fin 0)), F.fin 0⟩).data = _
  rw [F.sqrt_fin_of_nonneg 0 le_rfl, Real.sqrt_zero, F.one_div_zero, mul_scalar]
  show List.map (fun c => Cplx.mul c ⟨F.inf, F.fin 0⟩) (List.replicate n Cplx.zero) = _
  rw [List.map_replicate]
  have : Cplx.mul Cplx.zero ⟨F.inf, F.fin 0⟩ = Cplx.nanC := by
    simp [Cplx.mul, Cplx.zero, Cplx.nanC]
  rw [this]

/-- C6 amended: `normalize` scales `v` by
`Complex::new(1/sqrt(inner_product(v,v).re), 0)`; when the norm is a
finite nonzero real and the components are finite this is exactly
componentwise division by the norm, and when the norm is zero (the
all-zero vector) the routine does not fail — it silently returns
all-NaN components, since no zero-norm guard or `DomainError` exists. -/
theorem c6_normalize_amended :
    (∀ (v : FVec) (x : ℝ), F.sqrt (inner_product v v).re = F.fin x → x ≠ 0 →
      (∀ c ∈ v.data, ∃ a b : ℝ, c = ⟨F.fin a, F.fin b⟩) →
      normalize v =
        ⟨v.data.map (fun c => ⟨F.div c.re (F.fin x), F.div c.im (F.fin x)⟩)⟩) ∧
      ∀ n : ℕ, (normalize (zeroVecN n)).data = List.replicate n Cplx.nanC :=
  ⟨normalize_div_of_fin, normalize_zeroVecN⟩

/-- The vector `[(3,0), (4,0)]` of example scenario 4 in the spec. -/
def vec34 : FVec := ⟨[⟨F.fin 3, F.fin 0⟩, ⟨F.fin 4, F.fin 0⟩]⟩

/-- The inner product of `[(3,0),(4,0)]` with itself is 25. -/
theorem inner_vec34 : (inner_product vec34 vec34).re = F.fin 25 := by
  rw [inner_product]
  show (List.foldl _ Cplx.zero (List.range vec34.dim)).re = F.fin 25
  rw [show List.range vec34.dim = [0, 1] from rfl, List.foldl_cons, List.foldl_cons,
    List.foldl_nil]
  show (Cplx.add (Cplx.add Cplx.zero
      (Cplx.mul (Cplx.conj ⟨F.fin 3, F.fin 0⟩) ⟨F.fin 3, F.fin 0⟩))
      (Cplx.mul (Cplx.conj ⟨F.fin 4, F.fin 0⟩) ⟨F.fin 4, F.fin 0⟩)).re = F.fin 25
  simp only [Cplx.conj, Cplx.mul, Cplx.add, Cplx.zero, F.neg_fin, F.mul_fin,
    F.sub_fin, F.add_fin]
  norm_num

/-- Witness for C6: the norm of `[(3,0),(4,0)]` evaluates to 5 and
normalization divides by it componentwise (scenario 4 of the spec); the
one-dimensional zero vector comes out all-NaN. -/
theorem c6_witness :
    F.sqrt (inner_product vec34 vec34).re = F.fin 5 ∧ (5 : ℝ) ≠ 0 ∧
      (∀ c ∈ vec34.data, ∃ a b : ℝ, c = ⟨F.fin a, F.fin b⟩) ∧
      normalize vec34 =
        ⟨vec34.data.map (fun c => ⟨F.div c.re (F.fin 5), F.div c.im (F.fin 5)⟩)⟩ ∧
      (normalize (zeroVecN 1)).data = List.replicate 1 Cplx.nanC := by
  have h1 : F.sqrt (inner_product vec34 vec34).re = F.fin 5 := by
    rw [inner_vec34, F.sqrt_fin_of_nonneg 25 (by norm_num),
      show (25 : ℝ) = 5 ^ 2 by norm_num, Real.sqrt_sq (by norm_num : (0:ℝ) ≤ 5)]
  have hfin : ∀ c ∈ vec34.data, ∃ a b : ℝ, c = ⟨F.fin a, F.fin b⟩ := by
    intro c hc
    rw [vec34] at hc
    rcases List.mem_cons.mp hc with h | h
    · exact ⟨3, 0, h⟩
    · rcases List.mem_cons.mp h with h2 | h2
      · exact ⟨4, 0, h2⟩
      · exact absurd h2 (List.not_mem_nil c)
  exact ⟨h1, by norm_num, hfin,
    c6_normalize_amended.1 vec34 5 h1 (by norm_num) hfin, c6_normalize_amended.2 1⟩

/-- Embedding of `QuantumSystem::tensor_product_matrix`
(fock/src/main.rs, lines 505-522), over the float-model complex
scalars: same quadruple loop and assignment pattern as the compactify
`kronecker_product`. -/
noncomputable def tensor_product_matrix (a b : GMat FP.Cplx) : GMat FP.Cplx :=
  kronFold Cplx.zero Cplx.mul a b

end Fock

/-- C4: both Kronecker-product routines return a matrix of shape
`(r_a*r_b, c_a*c_b)` whose `(i*r_b+k, j*c_b+l)` entry is
`A[i,j] * B[k,l]`.  (The routines take their arguments by shared
reference and the embedding is purely functional, so `A` and `B` are
not modified.) -/
theorem c4_kronecker_tensor_product :
    (∀ a b : GMat ℂ,
      (Cpt.kronecker_product a b).rows = a.rows * b.rows ∧
        (Cpt.kronecker_product a b).cols = a.cols * b.cols ∧
        ∀ i j k l, i < a.rows → j < a.cols → k < b.rows → l < b.cols →
          (Cpt.kronecker_product a b).entry (i * b.rows + k) (j * b.cols + l) =
            a.entry i j * b.entry k l) ∧
      ∀ a b : GMat FP.Cplx,
        (Fock.tensor_product_matrix a b).rows = a.rows * b.rows ∧
          (Fock.tensor_product_matrix a b).cols = a.cols * b.cols ∧
          ∀ i j k l, i < a.rows → j < a.cols → k < b.rows → l < b.cols →
            (Fock.tensor_product_matrix a b).entry (i * b.rows + k) (j * b.cols + l) =
              FP.Cplx.mul (a.entry i j) (b.entry k l) := by
  constructor
  · intro a b
    refine ⟨(kronFold_shape _ _ a b).1, (kronFold_shape _ _ a b).2, ?_⟩
    intro i j k l hi hj hk hl
    exact kronFold_entry 0 (fun x y => x * y) a b i j k l hi hj hk hl
  · intro a b
    refine ⟨(kronFold_shape _ _ a b).1, (kronFold_shape _ _ a b).2, ?_⟩
    intro i j k l hi hj hk hl
    exact kronFold_entry FP.Cplx.zero FP.Cplx.mul a b i j k l hi hj hk hl

/-- Concrete 1x1 complex matrix with entry 2. -/
def two11 : GMat ℂ := ⟨1, 1, fun _ _ => 2⟩

/-- Concrete 1x1 complex matrix with entry 3. -/
def three11 : GMat ℂ := ⟨1, 1, fun _ _ => 3⟩

/-- Witness for C4 at 1x1 inputs. -/
theorem c4_witness :
    (0 : ℕ) < two11.rows ∧ (0 : ℕ) < three11.rows ∧
      (Cpt.kronecker_product two11 three11).rows = two11.rows * three11.rows ∧
      (Cpt.kronecker_product two11 three11).entry (0 * three11.rows + 0)
          (0 * three11.cols + 0) = two11.entry 0 0 * three11.entry 0 0 := by
  refine ⟨by norm_num [two11], by norm_num [three11],
    ((c4_kronecker_tensor_product.1 two11 three11).1), ?_⟩
  exact (c4_kronecker_tensor_product.1 two11 three11).2.2 0 0 0 0
    (by norm_num [two11]) (by norm_num [two11]) (by norm_num [three11])
    (by norm_num [three11])

namespace FP.Cplx

/-- Componentwise complex subtraction (fock `Complex::sub`,
`num_complex` subtraction). -/
noncomputable def sub (a b : Cplx) : Cplx := ⟨F.sub a.re b.re, F.sub a.im b.im⟩

end FP.Cplx

namespace QGP

open FP

/-- Embedding of the quark-gluon-plasma `Spinor` (spin-1/2 state with
`up`/`down` amplitudes), over the float model since the claims about it
concern IEEE NaN behaviour. -/
structure Spinor where
  up : Cplx
  down : Cplx

/-- Embedding of the `num_complex` `norm_sqr`: `re*re + im*im`. -/
noncomputable def norm_sqr (c : Cplx) : F := F.add (F.mul c.re c.re) (F.mul c.im c.im)

/-- Embedding of `Spinor::normalize` (quark-gluon-plasma/src/main.rs,
lines 50-55): divide both components by
`sqrt(|up|^2 + |down|^2)`, with no zero-norm guard. -/
noncomputable def Spinor.normalize (s : Spinor) : Spinor :=
  let norm := F.sqrt (F.add (norm_sqr s.up) (norm_sqr s.down))
  ⟨⟨F.div s.up.re norm, F.div s.up.im norm⟩,
    ⟨F.div s.down.re norm, F.div s.down.im norm⟩⟩

/-- Embedding of `Spinor::new` (lines 30-34): store and normalize. -/
noncomputable def Spinor.new (up down : Cplx) : Spinor := Spinor.normalize ⟨up, down⟩

/-- Embedding of `Spinor::spin_vector` (lines 58-63). -/
noncomputable def spin_vector (s : Spinor) : F × F × F :=
  (F.mul (F.fin 2) (Cplx.mul (Cplx.conj s.up) s.down).re,
    F.mul (F.fin 2) (Cplx.mul (Cplx.conj s.up) s.down).im,
    (Cplx.sub (Cplx.mul (Cplx.conj s.up) s.up)
      (Cplx.mul (Cplx.conj s.down) s.down)).re)

/-- A 2x2 matrix of float-model complex values (the evolution operator
`u_matrix`). -/
structure M2F where
  e00 : Cplx
  e01 : Cplx
  e10 : Cplx
  e11 : Cplx

/-- Embedding of `Lattice::apply_time_evolution` (lines 463-471):
matrix-vector product followed by `Spinor::new` (which renormalizes). -/
noncomputable def apply_time_evolution (u : M2F) (s : Spinor) : Spinor :=
  Spinor.new (Cplx.add (Cplx.mul u.e00 s.up) (Cplx.mul u.e01 s.down))
    (Cplx.add (Cplx.mul u.e10 s.up) (Cplx.mul u.e11 s.down))

/-- Embedding of the accumulation loop of
`Lattice::calculate_magnetization` (lines 509-526): componentwise sums
of `spin_vector` over all spins. -/
noncomputable def magnetization_total (l : List Spinor) : F × F × F :=
  l.foldl (fun t s =>
    (F.add t.1 (spin_vector s).1, F.add t.2.1 (spin_vector s).2.1,
      F.add t.2.2 (spin_vector s).2.2))
    (F.fin 0, F.fin 0, F.fin 0)

/-- Embedding of `Lattice::calculate_magnetization`: the accumulated
sums divided by the number of spins. -/
noncomputable def calculate_magnetization (l : List Spinor) : F × F × F :=
  (F.div (magnetization_total l).1 (F.fin l.length),
    F.div (magnetization_total l).2.1 (F.fin l.length),
    F.div (magnetization_total l).2.2 (F.fin l.length))

/-- Both components of a complex float are NaN. -/
def isNanC (c : Cplx) : Prop := c.re = F.nan ∧ c.im = F.nan

/-- All four real components of a spinor are NaN. -/
def isNanSp (s : Spinor) : Prop := isNanC s.up ∧ isNanC s.down

/-- Division of exact zero by exact zero is NaN. -/
@[simp] theorem zero_div_zero : F.div (F.fin 0) (F.fin 0) = F.nan := by
  rw [F.div]
  simp

/-- Complex multiplication by an all-NaN operand is all-NaN. -/
theorem mul_isNanC_right (c d : Cplx) (hd : isNanC d) : Cplx.mul c d = Cplx.nanC := by
  rcases d with ⟨dre, dim⟩
  obtain ⟨h1, h2⟩ := hd
  simp only at h1 h2
  subst h1; subst h2
  simp [Cplx.mul, Cplx.nanC]

/-- Addition with an all-NaN operand is all-NaN. -/
theorem add_isNanC_right (c d : Cplx) (hd : isNanC d) : Cplx.add c d = Cplx.nanC := by
  rcases d with ⟨dre, dim⟩
  obtain ⟨h1, h2⟩ := hd
  simp only at h1 h2
  subst h1; subst h2
  simp [Cplx.add, Cplx.nanC]

/-- The all-NaN complex float is all-NaN. -/
theorem isNanC_nanC : isNanC Cplx.nanC := ⟨rfl, rfl⟩

/-- Normalizing a spinor whose components are all NaN keeps every
component NaN. -/
theorem spinor_new_nan : Spinor.new Cplx.nanC Cplx.nanC = ⟨Cplx.nanC, Cplx.nanC⟩ := by
  rw [Spinor.new, Spinor.normalize]
  simp [norm_sqr, Cplx.nanC]

/-- The spin vector of an all-NaN spinor is NaN in all components. -/
theorem spin_vector_nan (s : Spinor) (hs : isNanSp s) :
    spin_vector s = (F.nan, F.nan, F.nan) := by
  rw [spin_vector, mul_isNanC_right _ _ hs.1, mul_isNanC_right _ _ hs.2]
  simp [Cplx.nanC, Cplx.sub]

/-- C9 helper: `magnetization_total` is absorbed by a NaN accumulator. -/
theorem magnetization_total_preserve_nan (l : List Spinor) :
    ∀ acc : F × F × F, acc.1 = F.nan → acc.2.1 = F.nan → acc.2.2 = F.nan →
      (l.foldl (fun t s =>
        (F.add t.1 (spin_vector s).1, F.add t.2.1 (spin_vector s).2.1,
          F.add t.2.2 (spin_vector s).2.2)) acc) = (F.nan, F.nan, F.nan) := by
  induction l with
  | nil =>
      intro acc h1 h2 h3
      rcases acc with ⟨a, b, c⟩
      simp only at h1 h2 h3
      simp [List.foldl_nil, h1, h2, h3]
  | cons y T ih =>
      intro acc h1 h2 h3
      rw [List.foldl_cons]
      exact ih _ (by rw [h1]; simp) (by rw [h2]; simp) (by rw [h3]; simp)

/-- C9 helper: a NaN spinor anywhere in the list poisons the
accumulated magnetization sums. -/
theorem magnetization_foldl_of_mem_nan :
    ∀ (l : List Spinor) (acc : F × F × F) (s : Spinor), s ∈ l → isNanSp s →
      (l.foldl (fun t s =>
        (F.add t.1 (spin_vector s).1, F.add t.2.1 (spin_vector s).2.1,
          F.add t.2.2 (spin_vector s).2.2)) acc) = (F.nan, F.nan, F.nan) := by
  intro l
  induction l with
  | nil => intro acc s hmem; exact absurd hmem (List.not_mem_nil s)
  | cons y T ih =>
      intro acc s hmem hs
      rw [List.foldl_cons]
      rcases List.mem_cons.mp hmem with hy | hT
      · subst hy
        rw [spin_vector_nan s hs]
        exact magnetization_total_preserve_nan T _ (by simp) (by simp) (by simp)
      · exact ih _ s hT hs

/-- C9: particle annihilation stores `Spinor::new(0, 0)`, whose
normalization computes `0/0` in all four components, yielding NaN;
every subsequent `apply_time_evolution` of an all-NaN spinor is again
all-NaN; the spin vector of an all-NaN spinor is NaN in all three
components; and any magnetization sum over a lattice containing an
all-NaN spinor is NaN in all three components.  No error is ever
reported: all the embedded routines are total. -/
theorem c9_annihilation_nan_propagation :
    Spinor.new Cplx.zero Cplx.zero = ⟨Cplx.nanC, Cplx.nanC⟩ ∧
      (∀ (u : M2F) (s : Spinor), isNanSp s →
        apply_time_evolution u s = ⟨Cplx.nanC, Cplx.nanC⟩) ∧
      (∀ s : Spinor, isNanSp s → spin_vector s = (F.nan, F.nan, F.nan)) ∧
      ∀ (l : List Spinor) (s : Spinor), s ∈ l → isNanSp s →
        calculate_magnetization l = (F.nan, F.nan, F.nan) := by
  have hnew0 : Spinor.new Cplx.zero Cplx.zero = ⟨Cplx.nanC, Cplx.nanC⟩ := by
    rw [Spinor.new, Spinor.normalize]
    have hns : norm_sqr Cplx.zero = F.fin 0 := by
      rw [norm_sqr, Cplx.zero]
      simp only [F.mul_fin, F.add_fin]
      norm_num
    rw [hns]
    simp only [F.add_fin]
    norm_num
    rw [F.sqrt_fin_of_nonneg 0 le_rfl, Real.sqrt_zero]
    simp [Cplx.zero, Cplx.nanC]
  have hev : ∀ (u : M2F) (s : Spinor), isNanSp s →
      apply_time_evolution u s = ⟨Cplx.nanC, Cplx.nanC⟩ := by
    intro u s hs
    rw [apply_time_evolution]
    simp only [mul_isNanC_right _ _ hs.1, mul_isNanC_right _ _ hs.2,
      add_isNanC_right _ _ isNanC_nanC]
    exact spinor_new_nan
  refine ⟨hnew0, hev, spin_vector_nan, ?_⟩
  intro l s hmem hs
  have htot : magnetization_total l = (F.nan, F.nan, F.nan) :=
    magnetization_foldl_of_mem_nan l _ s hmem hs
  rw [calculate_magnetization, htot]
  simp

/-- Witness for C9: the annihilated spinor is all-NaN, evolving it by
the identity operator keeps it all-NaN, its spin vector is NaN, and the
magnetization of the one-spin lattice holding it is NaN. -/
theorem c9_witness :
    isNanSp (⟨Cplx.nanC, Cplx.nanC⟩ : Spinor) ∧
      (⟨Cplx.nanC, Cplx.nanC⟩ : Spinor) ∈ [(⟨Cplx.nanC, Cplx.nanC⟩ : Spinor)] ∧
      apply_time_evolution
          ⟨⟨F.fin 1, F.fin 0⟩, ⟨F.fin 0, F.fin 0⟩, ⟨F.fin 0, F.fin 0⟩, ⟨F.fin 1, F.fin 0⟩⟩
          ⟨Cplx.nanC, Cplx.nanC⟩ = ⟨Cplx.nanC, Cplx.nanC⟩ ∧
      calculate_magnetization [(⟨Cplx.nanC, Cplx.nanC⟩ : Spinor)] =
        (F.nan, F.nan, F.nan) := by
  have hnan : isNanSp (⟨Cplx.nanC, Cplx.nanC⟩ : Spinor) := ⟨isNanC_nanC, isNanC_nanC⟩
  refine ⟨hnan, List.mem_cons_self _ _, ?_, ?_⟩
  · exact c9_annihilation_nan_propagation.2.1 _ _ hnan
  · exact c9_annihilation_nan_propagation.2.2.2 _ _ (List.mem_cons_self _ _) hnan

end QGP

namespace PW

/-- Embedding of `NeutrinoState` (photon-wells/src/main.rs, lines
71-77; identical struct in education/src/main.rs): a 4-component
complex spinor, a flavor index, an accumulated lifetime and an
activity flag. -/
structure NeutrinoState where
  spinor : Fin 4 → ℂ
  flavor : ℕ
  lifetime : ℝ
  active : Bool

/-- Model of the saturating Rust `f64 as usize` cast: truncation toward zero,
negative values (and NaN) map to 0, values beyond `usize::MAX`
saturate. -/
noncomputable def f64_as_usize (r : ℝ) : ℕ := min (Nat.floor r) (2 ^ 64 - 1)

/-- Embedding of `NeutrinoState::new_random` (photon-wells, lines
80-96; identical in education): eight uniform draws build the spinor,
which is normalized; the flavor comes from `rng.gen_range(0..3)`,
modelled as an extra draw `fd` (with `fd < 3` as the generator
contract in theorems). -/
noncomputable def new_random (draws : ℕ → ℝ) (fd : ℕ) : NeutrinoState :=
  let spinor : Fin 4 → ℂ := fun i => ⟨draws (2 * (i : ℕ)), draws (2 * (i : ℕ) + 1)⟩
  let norm := Real.sqrt (∑ i, Complex.normSq (spinor i))
  { spinor := fun i => spinor i / (norm : ℂ)
    flavor := fd
    lifetime := 0
    active := true }

/-- Embedding of `NeutrinoState::update` (photon-wells, lines 98-124;
identical in education, lines 88-110): the flavor rotates by
`((flavor as f64 + sin(axion*intensity)) as usize) % 3`; a majority of
same-flavor active neighbours flips the last spinor component; the
spinor is renormalized when its norm is nonzero. -/
noncomputable def update (s : NeutrinoState) (neighbors : List NeutrinoState)
    (axionValue intensity : ℝ) : NeutrinoState :=
  if s.active = false then s
  else
    let rotation_angle := Real.sin (axionValue * intensity)
    let new_flavor := (f64_as_usize ((s.flavor : ℝ) + rotation_angle)) % 3
    let flavor_count :=
      (neighbors.filter (fun n => n.active && n.flavor == new_flavor)).length
    let sp1 := if flavor_count > neighbors.length / 2 then
        Function.update s.spinor 3 (-(s.spinor 3)) else s.spinor
    let norm := Real.sqrt (∑ i, Complex.normSq (sp1 i))
    let sp2 := if norm ≠ 0 then fun i => sp1 i / (norm : ℂ) else sp1
    { spinor := sp2, flavor := new_flavor, lifetime := s.lifetime, active := s.active }

/-- Embedding of `NeutrinoState::decay_into_daughters` (photon-wells,
lines 148-158; identical in education): a fresh random daughter whose
flavor is overwritten with `(flavor + 1) % 3` and whose spinor is
halved. -/
noncomputable def decay_into_daughters (s : NeutrinoState) (draws : ℕ → ℝ)
    (fd : ℕ) : NeutrinoState :=
  let d := new_random draws fd
  { d with flavor := (s.flavor + 1) % 3, spinor := fun i => d.spinor i * (0.5 : ℂ) }

/-- C10: every operation keeps `flavor < 3`: `new_random` copies a draw
from `0..3`; `decay_into_daughters` sets `(flavor + 1) % 3`; `update`
sets `((flavor as f64 + rotation) as usize) % 3`; and the saturating
cast sends negative sums to 0. -/
theorem c10_flavor_invariant :
    (∀ (draws : ℕ → ℝ) (fd : ℕ), fd < 3 → (new_random draws fd).flavor < 3) ∧
      (∀ (s : NeutrinoState) (draws : ℕ → ℝ) (fd : ℕ),
        (decay_into_daughters s draws fd).flavor < 3) ∧
      (∀ (s : NeutrinoState) (nb : List NeutrinoState) (av it : ℝ),
        s.flavor < 3 → (update s nb av it).flavor < 3) ∧
      ∀ r : ℝ, r < 0 → f64_as_usize r = 0 := by
  refine ⟨fun draws fd h => h, ?_, ?_, ?_⟩
  · intro s draws fd
    show (s.flavor + 1) % 3 < 3
    exact Nat.mod_lt _ (by norm_num)
  · intro s nb av it hs
    rw [update]
    by_cases h : s.active = false
    · rw [if_pos h]
      exact hs
    · rw [if_neg h]
      exact Nat.mod_lt _ (by norm_num)
  · intro r hr
    rw [f64_as_usize, Nat.floor_of_nonpos hr.le]
    exact Nat.zero_min _

/-- A concrete active neutrino state with flavor 0. -/
noncomputable def nuExample : NeutrinoState := ⟨fun _ => 0, 0, 0, true⟩

/-- Witness for C10 at concrete draws, flavor 2, and `r = -1`. -/
theorem c10_witness :
    (2 : ℕ) < 3 ∧ (new_random (fun _ => 0) 2).flavor < 3 ∧
      (decay_into_daughters nuExample (fun _ => 0) 2).flavor < 3 ∧
      nuExample.flavor < 3 ∧ (update nuExample [] 0 0).flavor < 3 ∧
      (-1 : ℝ) < 0 ∧ f64_as_usize (-1) = 0 := by
  have h2 : (2 : ℕ) < 3 := by norm_num
  have hnu : nuExample.flavor < 3 := by norm_num [nuExample]
  exact ⟨h2, c10_flavor_invariant.1 (fun _ => 0) 2 h2,
    c10_flavor_invariant.2.1 nuExample (fun _ => 0) 2, hnu,
    c10_flavor_invariant.2.2.1 nuExample [] 0 0 hnu, by norm_num,
    c10_flavor_invariant.2.2.2 (-1) (by norm_num)⟩

end PW

namespace Cpt

/-- Embedding of the internal-state construction in `Particle::new`
(compactify/src/main.rs, lines 22-40): `DVector::from_fn` draws two
uniform values per component from `rand::thread_rng()` — modelled as an
ambient entropy stream `e`, since `thread_rng` is seeded from the
operating system and differs between runs — then normalizes by the
Euclidean norm. -/
noncomputable def particle_state (dim : ℕ) (e : ℕ → ℝ) : CVec :=
  let state : CVec :=
    ⟨dim, fun i => if i < dim then ⟨e (2 * i) - 0.5, e (2 * i + 1) - 0.5⟩ else 0⟩
  let norm := Real.sqrt (∑ i ∈ Finset.range dim, Complex.normSq (state.get i))
  ⟨dim, fun i => state.get i / (norm : ℂ)⟩

/-- Embedding of `Particle::new`: position, zero velocity, normalized
random internal state, no partner, uncharged. -/
noncomputable def particle_new (x y : ℝ) (dim : ℕ) (e : ℕ → ℝ) :
    (ℝ × ℝ) × (ℝ × ℝ) × CVec × Option ℕ × Bool :=
  ((x, y), (0, 0), particle_state dim e, none, false)

/-- C8 counterexample: `Particle::new` reads `rand::thread_rng()`,
whose draws depend on ambient OS entropy; two runs supplying different
draw streams (here, all-ones versus all-zeros) produce different
particles, so two runs of the compactify simulation need not produce
identical outputs. -/
theorem c8_counterexample :
    particle_new 0 0 1 (fun _ => 1) ≠ particle_new 0 0 1 (fun _ => 0) := by
  intro h
  have hs : particle_state 1 (fun _ => 1) = particle_state 1 (fun _ => 0) := by
    simpa [particle_new] using congrArg (fun p => p.2.2.1) h
  have hget := congrArg (fun v => v.get 0) hs
  rw [particle_state, particle_state] at hget
  dsimp only at hget
  norm_num [Finset.sum_range_one, Complex.normSq_mk] at hget

/-- C8 amended: the particle construction is a function of the drawn
values alone — two runs whose generators yield the same first `2*dim`
draws construct identical particles.  A fixed-seed `StdRng` always
replays the same stream, which is why the seeded simulations are
reproducible; `thread_rng` is not seeded, so its stream (and hence the
output) varies between runs. -/
theorem c8_amended_determinism (x y : ℝ) (dim : ℕ) (e1 e2 : ℕ → ℝ)
    (h : ∀ k, k < 2 * dim → e1 k = e2 k) :
    particle_new x y dim e1 = particle_new x y dim e2 := by
  have hstate : particle_state dim e1 = particle_state dim e2 := by
    have hinner : ∀ i : ℕ,
        (if i < dim then (⟨e1 (2 * i) - 0.5, e1 (2 * i + 1) - 0.5⟩ : ℂ) else 0) =
          (if i < dim then (⟨e2 (2 * i) - 0.5, e2 (2 * i + 1) - 0.5⟩ : ℂ) else 0) := by
      intro i
      by_cases hi : i < dim
      · rw [if_pos hi, if_pos hi, h (2 * i) (by omega), h (2 * i + 1) (by omega)]
      · rw [if_neg hi, if_neg hi]
    rw [particle_state, particle_state]
    dsimp only
    have hsum :
        (∑ x ∈ Finset.range dim, Complex.normSq
          (if x < dim then (⟨e1 (2 * x) - 0.5, e1 (2 * x + 1) - 0.5⟩ : ℂ) else 0)) =
          ∑ x ∈ Finset.range dim, Complex.normSq
            (if x < dim then (⟨e2 (2 * x) - 0.5, e2 (2 * x + 1) - 0.5⟩ : ℂ) else 0) :=
      Finset.sum_congr rfl (fun x _ => by rw [hinner x])
    congr 1
    funext i
    rw [hinner i, hsum]
  rw [particle_new, particle_new, hstate]

/-- Witness for C8 amended at `dim = 1` with equal streams. -/
theorem c8_witness :
    (∀ k, k < 2 * 1 → (fun _ : ℕ => (0 : ℝ)) k = (fun _ : ℕ => (0 : ℝ)) k) ∧
      particle_new 0 0 1 (fun _ => 0) = particle_new 0 0 1 (fun _ => 0) :=
  ⟨fun _ _ => rfl, c8_amended_determinism 0 0 1 (fun _ => 0) (fun _ => 0)
    (fun _ _ => rfl)⟩

end Cpt

namespace SB

/-- Lattice size constant of spin-class/src/base.rs (`LATTICE_SIZE`),
a 20x20x20 grid. -/
def LATTICE_SIZE : ℕ := 20

/-- Number of evolution steps (`TIME_STEPS`). -/
def TIME_STEPS : ℕ := 100

/-- The z-inner loop of the cell visitation order: cells `(x, y, 0..20)`. -/
def zrow (x y : ℕ) : List (ℕ × ℕ × ℕ) :=
  (List.range LATTICE_SIZE).map fun z => (x, y, z)

/-- The y/z loops of the visitation order: all cells with first
coordinate `x`. -/
def block (x : ℕ) : List (ℕ × ℕ × ℕ) :=
  (List.range LATTICE_SIZE).flatMap fun y => zrow x y

/-- Row-major visitation order of `Lattice::evolve`
(spin-class/src/base.rs, lines 90-92): `x`, then `y`, then `z`. -/
def order_list : List (ℕ × ℕ × ℕ) := (List.range LATTICE_SIZE).flatMap block

/-- Every cell of `block x` has first coordinate `x`. -/
theorem mem_block_fst {p : ℕ × ℕ × ℕ} {x : ℕ} (h : p ∈ block x) : p.1 = x := by
  simp only [block, zrow, List.mem_flatMap, List.mem_map, List.mem_range] at h
  obtain ⟨y, _, z, _, rfl⟩ := h
  rfl

/-- Peeling the head off `List.range`. -/
theorem range_succ_head (n : ℕ) :
    List.range (n + 1) = 0 :: (List.range n).map (fun k => k + 1) := by
  rw [List.range_succ_eq_map]

/-- The visitation cells that follow `(1,0,0)` in row-major order. -/
def tailB : List (ℕ × ℕ × ℕ) :=
  (List.range 19).map (fun z => ((1 : ℕ), (0 : ℕ), z + 1)) ++
    (((List.range 19).map (fun k => k + 1)).flatMap (zrow 1) ++
      ((List.range 18).map (fun k => k + 2)).flatMap block)

/-- The visitation cells that follow `(0,0,0)` inside the `x = 0`
block. -/
def tail0 : List (ℕ × ℕ × ℕ) :=
  (List.range 19).map (fun z => ((0 : ℕ), (0 : ℕ), z + 1)) ++
    ((List.range 19).map (fun k => k + 1)).flatMap (zrow 0)

/-- The row-major order splits as the `x = 0` block, then `(1,0,0)`,
then the remaining cells. -/
theorem order_decomp : order_list = block 0 ++ ((1, 0, 0) :: tailB) := by
  have h20 : List.range LATTICE_SIZE = 0 :: 1 :: (List.range 18).map (fun k => k + 2) := by
    show List.range 20 = _
    rw [range_succ_head 19, range_succ_head 18, List.map_cons, List.map_map]
    rfl
  rw [order_list, h20, List.flatMap_cons, List.flatMap_cons]
  have hblock1 : block 1 = (1, 0, 0) ::
      ((List.range 19).map (fun z => ((1 : ℕ), (0 : ℕ), z + 1)) ++
        ((List.range 19).map (fun k => k + 1)).flatMap (zrow 1)) := by
    rw [block, show List.range LATTICE_SIZE = 0 :: (List.range 19).map (fun k => k + 1) from
      range_succ_head 19, List.flatMap_cons]
    have hz : zrow 1 0 = (1, 0, 0) :: (List.range 19).map (fun z => ((1:ℕ), (0:ℕ), z + 1)) := by
      rw [zrow, show List.range LATTICE_SIZE = 0 :: (List.range 19).map (fun k => k + 1) from
        range_succ_head 19, List.map_cons, List.map_map]
      rfl
    rw [hz]
    rfl
  rw [hblock1, tailB]
  simp [List.append_assoc]

/-- The `x = 0` block starts with `(0,0,0)`. -/
theorem block0_decomp : block 0 = (0, 0, 0) :: tail0 := by
  rw [block, show List.range LATTICE_SIZE = 0 :: (List.range 19).map (fun k => k + 1) from
    range_succ_head 19, List.flatMap_cons]
  have hz : zrow 0 0 = (0, 0, 0) :: (List.range 19).map (fun z => ((0:ℕ), (0:ℕ), z + 1)) := by
    rw [zrow, show List.range LATTICE_SIZE = 0 :: (List.range 19).map (fun k => k + 1) from
      range_succ_head 19, List.map_cons, List.map_map]
    rfl
  rw [hz, tail0]
  rfl

/-- Cell `(1,0,0)` is visited exactly once: it does not recur later. -/
theorem not_mem_tailB : ((1 : ℕ), (0 : ℕ), (0 : ℕ)) ∉ tailB := by
  intro h
  rcases List.mem_append.mp h with h1 | h2
  · simp only [List.mem_map, List.mem_range] at h1
    obtain ⟨z, _, hz⟩ := h1
    exact absurd (congrArg (fun p => p.2.2) hz) (by simp)
  · rcases List.mem_append.mp h2 with h3 | h4
    · simp only [List.mem_flatMap, List.mem_map, List.mem_range] at h3
      obtain ⟨y, ⟨k, _, rfl⟩, hy⟩ := h3
      simp only [zrow, List.mem_map, List.mem_range] at hy
      obtain ⟨z, _, hz⟩ := hy
      exact absurd (congrArg (fun p => p.2.1) hz) (by simp)
    · simp only [List.mem_flatMap, List.mem_map, List.mem_range] at h4
      obtain ⟨x, ⟨k, _, rfl⟩, hx⟩ := h4
      have := mem_block_fst hx
      simp at this

/-- Cell `(0,0,0)` does not recur after its visit inside the `x = 0`
block. -/
theorem not_mem_tail0 : ((0 : ℕ), (0 : ℕ), (0 : ℕ)) ∉ tail0 := by
  intro h
  rcases List.mem_append.mp h with h1 | h2
  · simp only [List.mem_map, List.mem_range] at h1
    obtain ⟨z, _, hz⟩ := h1
    exact absurd (congrArg (fun p => p.2.2) hz) (by simp)
  · simp only [List.mem_flatMap, List.mem_map, List.mem_range] at h2
    obtain ⟨y, ⟨k, _, rfl⟩, hy⟩ := h2
    simp only [zrow, List.mem_map, List.mem_range] at hy
    obtain ⟨z, _, hz⟩ := hy
    exact absurd (congrArg (fun p => p.2.1) hz) (by simp)

/-- Embedding of the base.rs `Spin`: a classical 3-vector. -/
structure Spin where
  sx : ℝ
  sy : ℝ
  sz : ℝ

/-- The lattice buffer, as a total function from coordinates to spins
(cells outside the 20x20x20 grid are never visited). -/
abbrev Grid := ℕ × ℕ × ℕ → Spin

/-- Physical constants of spin-class/src/base.rs. -/
def HBAR : ℝ := 1.0545718e-34

/-- Boltzmann constant. -/
def KB : ℝ := 1.380649e-23

/-- Bohr magneton. -/
def MU_B : ℝ := 9.274009994e-24

/-- Exchange energy constant. -/
def J_EXCHANGE : ℝ := 1e-21

/-- Lattice temperature. -/
def TEMPERATURE : ℝ := 300.0

/-- External magnetic field. -/
def EXTERNAL_FIELD : ℝ := 1.0

/-- The value `usize::MAX`, produced by `wrapping_sub(1)` at zero. -/
def usizeMax : ℕ := 2 ^ 64 - 1

/-- Model of the Rust `usize::wrapping_sub(1)`. -/
def wsub (x : ℕ) : ℕ := if x = 0 then usizeMax else x - 1

/-- The six candidate neighbour positions of `get_neighbors`
(spin-class/src/base.rs, lines 134-141): `wrapping_sub` on the lower
side (so index 0 yields `usize::MAX`, later filtered out — boundaries
are not periodic on that side) and `% LATTICE_SIZE` on the upper
side. -/
def neighbor_positions (x y z : ℕ) : List (ℕ × ℕ × ℕ) :=
  [(wsub x, y, z), ((x + 1) % LATTICE_SIZE, y, z),
    (x, wsub y, z), (x, (y + 1) % LATTICE_SIZE, z),
    (x, y, wsub z), (x, y, (z + 1) % LATTICE_SIZE)]

/-- Embedding of `Lattice::get_neighbors` (lines 132-148): in-bounds
candidate positions, read from the CURRENT lattice buffer
(`self.spins`), not from a snapshot. -/
def get_neighbors (lat : Grid) (x y z : ℕ) : List Spin :=
  ((neighbor_positions x y z).filter
    (fun p => decide (p.1 < LATTICE_SIZE ∧ p.2.1 < LATTICE_SIZE ∧ p.2.2 < LATTICE_SIZE))).map
    lat

/-- Embedding of the per-cell body of `Lattice::evolve` (lines 93-124):
exchange field summed from the neighbours, one thermal draw `r` used
for all three components, the simplified Landau-Lifshitz cross-product
update, and in-place normalization. -/
noncomputable def cell_update (lat : Grid) (r : ℝ) (c : ℕ × ℕ × ℕ) : Spin :=
  let neighbors := get_neighbors lat c.1 c.2.1 c.2.2
  let ex := neighbors.foldl
    (fun (f : ℝ × ℝ × ℝ) n => (f.1 + n.sx, f.2.1 + n.sy, f.2.2 + n.sz)) (0, 0, 0)
  let thermal := (2 * r - 1) * (2 * Real.pi * KB * TEMPERATURE / HBAR)
  let eff : Spin := ⟨J_EXCHANGE * ex.1 + thermal, J_EXCHANGE * ex.2.1 + thermal,
    J_EXCHANGE * ex.2.2 + thermal + MU_B * EXTERNAL_FIELD⟩
  let cur := lat c
  let cross : Spin := ⟨cur.sy * eff.sz - cur.sz * eff.sy,
    cur.sz * eff.sx - cur.sx * eff.sz, cur.sx * eff.sy - cur.sy * eff.sx⟩
  let w : Spin := ⟨cur.sx + cross.sx * HBAR, cur.sy + cross.sy * HBAR,
    cur.sz + cross.sz * HBAR⟩
  let mag := Real.sqrt (w.sx ^ 2 + w.sy ^ 2 + w.sz ^ 2)
  ⟨w.sx / mag, w.sy / mag, w.sz / mag⟩

/-- One visit of the inner loop of `evolve`: write the new cell value into
the live buffer (`self.spins[x][y][z] = ...`) and consume one random
draw (`rand::thread_rng()` is modelled as the ambient stream `e`,
indexed by the number of draws so far). -/
noncomputable def step_cell (st : Grid × ℕ) (e : ℕ → ℝ) (c : ℕ × ℕ × ℕ) : Grid × ℕ :=
  (Function.update st.1 c (cell_update st.1 (e st.2) c), st.2 + 1)

/-- One full time step of `Lattice::evolve`: the sequential in-place
sweep over all cells in row-major order. -/
noncomputable def evolve_step (lat : Grid) (e : ℕ → ℝ) (k0 : ℕ) : Grid × ℕ :=
  order_list.foldl (fun st c => step_cell st e c) (lat, k0)

/-- Embedding of `Lattice::evolve`: `TIME_STEPS` sequential sweeps. -/
noncomputable def evolve (lat : Grid) (e : ℕ → ℝ) : Grid × ℕ :=
  (List.range TIME_STEPS).foldl (fun st _ => evolve_step st.1 e st.2) (lat, 0)

/-- Modelled from the spec: the snapshot-discipline step the claim
describes — every next cell value computed purely from the
start-of-step buffer, with the same per-cell draw, written to a fresh
buffer. -/
noncomputable def evolve_step_snapshot (lat : Grid) (e : ℕ → ℝ) (k0 : ℕ) : Grid :=
  fun c => if c ∈ order_list then
    cell_update lat (e (k0 + order_list.indexOf c)) c else lat c

/-- A cell not visited by a sweep fragment keeps its value. -/
theorem foldl_step_fst_of_not_mem (e : ℕ → ℝ) :
    ∀ (L : List (ℕ × ℕ × ℕ)) (st : Grid × ℕ) (c : ℕ × ℕ × ℕ), c ∉ L →
      ((L.foldl (fun s p => step_cell s e p) st)).1 c = st.1 c := by
  intro L
  induction L with
  | nil => intro st c _; rfl
  | cons y T ih =>
      intro st c hc
      rw [List.foldl_cons, ih _ c (fun h => hc (List.mem_cons_of_mem y h))]
      refine Function.update_noteq ?_ _ _
      intro h
      rw [h] at hc
      exact hc (List.mem_cons_self y T)

/-- The value a sweep leaves at a once-visited cell `c` is computed
from the buffer state reached after processing all cells BEFORE `c` —
i.e. from a partially updated buffer, not from the start-of-sweep
snapshot. -/
theorem foldl_step_value (e : ℕ → ℝ) (A B : List (ℕ × ℕ × ℕ)) (c : ℕ × ℕ × ℕ)
    (hc : c ∉ B) (st : Grid × ℕ) :
    (((A ++ c :: B).foldl (fun s p => step_cell s e p) st)).1 c =
      cell_update ((A.foldl (fun s p => step_cell s e p) st)).1
        (e ((A.foldl (fun s p => step_cell s e p) st)).2) c := by
  rw [List.foldl_append, List.foldl_cons, foldl_step_fst_of_not_mem e B _ c hc]
  show (Function.update _ c _) c = _
  rw [Function.update_same]

/-- The function `cell_update` reads the lattice only at the cell itself and its
candidate neighbour positions. -/
theorem cell_update_congr (lat1 lat2 : Grid) (r : ℝ) (c : ℕ × ℕ × ℕ)
    (hc : lat1 c = lat2 c)
    (hn : ∀ p ∈ neighbor_positions c.1 c.2.1 c.2.2, lat1 p = lat2 p) :
    cell_update lat1 r c = cell_update lat2 r c := by
  have hgn : get_neighbors lat1 c.1 c.2.1 c.2.2 = get_neighbors lat2 c.1 c.2.1 c.2.2 := by
    rw [get_neighbors, get_neighbors]
    apply List.map_congr_left
    intro p hp
    exact hn p (List.mem_of_mem_filter hp)
  rw [cell_update, cell_update, hgn, hc]

/-- The all-up spin (the lattice initialization `Spin::new_up`). -/
def spinUp : Spin := ⟨0, 0, 1⟩

/-- A spin pointing along x. -/
def spinX : Spin := ⟨1, 0, 0⟩

/-- Concrete initial lattice for the counterexample: all spins up,
except the origin, which points along x. -/
def L0 : Grid := fun c => if c = (0, 0, 0) then spinX else spinUp

/-- The constant entropy stream with every draw `1/2` (which makes the
thermal term exactly zero, so randomness plays no role and the
comparison below isolates the read/write race). -/
noncomputable def ehalf : ℕ → ℝ := fun _ => 1 / 2

/-- The value the sweep writes at the origin. -/
noncomputable def uSpin : Spin := cell_update L0 (1 / 2) (0, 0, 0)

/-- Neighbours of the origin in `L0`: three up-spins (the lower-side
candidates are out of bounds). -/
theorem gn000 : get_neighbors L0 0 0 0 = [spinUp, spinUp, spinUp] := by
  rw [get_neighbors, neighbor_positions]
  norm_num [wsub, usizeMax, LATTICE_SIZE, List.filter_cons, L0]

/-- Neighbours of `(1,0,0)` in the snapshot `L0`: the x-spin at the
origin and three up-spins. -/
theorem gn100 : get_neighbors L0 1 0 0 = [spinX, spinUp, spinUp, spinUp] := by
  rw [get_neighbors, neighbor_positions]
  norm_num [wsub, usizeMax, LATTICE_SIZE, List.filter_cons, L0]

/-- Closed form of the updated value at the origin: the cross-product update
tilts the x-spin towards `-y`, then normalizes. -/
theorem uSpin_eval :
    uSpin = ⟨1 / Real.sqrt (1 + (-(J_EXCHANGE * 3 + MU_B) * HBAR) ^ 2),
      -(J_EXCHANGE * 3 + MU_B) * HBAR /
        Real.sqrt (1 + (-(J_EXCHANGE * 3 + MU_B) * HBAR) ^ 2),
      0⟩ := by
  rw [uSpin, cell_update, gn000]
  simp only [spinUp, spinX, List.foldl_cons, List.foldl_nil, L0]
  norm_num [EXTERNAL_FIELD, TEMPERATURE]

/-- The effective-field magnitude at the origin is positive. -/
theorem E0_pos : (0 : ℝ) < J_EXCHANGE * 3 + MU_B := by
  norm_num [J_EXCHANGE, MU_B]

/-- The normalization magnitude at the origin is positive. -/
theorem m0_pos : (0 : ℝ) < Real.sqrt (1 + (-(J_EXCHANGE * 3 + MU_B) * HBAR) ^ 2) := by
  apply Real.sqrt_pos.mpr
  positivity

/-- The updated origin spin has a strictly negative y-component. -/
theorem uSpin_sy_neg : uSpin.sy < 0 := by
  rw [uSpin_eval]
  show -(J_EXCHANGE * 3 + MU_B) * HBAR /
    Real.sqrt (1 + (-(J_EXCHANGE * 3 + MU_B) * HBAR) ^ 2) < 0
  apply div_neg_of_neg_of_pos _ m0_pos
  have h1 : (0 : ℝ) < HBAR := by norm_num [HBAR]
  nlinarith [E0_pos]

/-- The buffer state `L0` with the origin already overwritten — what
the live sweep has produced by the time it reaches `(1,0,0)`. -/
noncomputable def Lmid : Grid := Function.update L0 (0, 0, 0) uSpin

/-- Neighbours of `(1,0,0)` in the partially updated buffer: the
already-rotated origin spin and three up-spins. -/
theorem gn100_mid : get_neighbors Lmid 1 0 0 = [uSpin, spinUp, spinUp, spinUp] := by
  rw [get_neighbors, neighbor_positions]
  have h1 : Lmid (0, 0, 0) = uSpin := Function.update_same _ _ _
  have h2 : ∀ p : ℕ × ℕ × ℕ, p ≠ (0, 0, 0) → Lmid p = L0 p :=
    fun p hp => Function.update_noteq hp _ _
  norm_num [wsub, usizeMax, LATTICE_SIZE, List.filter_cons, h1, h2, L0]
  exact h1

/-- From the snapshot, the new `(1,0,0)` spin has x-component zero (its
exchange field has no y-component, so the cross product has no
x-component). -/
theorem snap_sx_zero : (cell_update L0 (1 / 2) (1, 0, 0)).sx = 0 := by
  rw [cell_update, gn100]
  have hcur : L0 (1, 0, 0) = spinUp := by norm_num [L0]
  simp only [spinUp, spinX, List.foldl_cons, List.foldl_nil, hcur]
  norm_num

/-- From the live buffer, the new `(1,0,0)` spin has a strictly
positive x-component: the already-updated origin contributes a negative
y exchange component. -/
theorem seq_sx_pos : 0 < (cell_update Lmid (1 / 2) (1, 0, 0)).sx := by
  rw [cell_update, gn100_mid]
  have hcur : Lmid (1, 0, 0) = spinUp := Function.update_noteq (by simp) _ _
  simp only [spinUp, List.foldl_cons, List.foldl_nil, hcur]
  norm_num
  apply div_pos
  · have hJ : (0:ℝ) < J_EXCHANGE := by norm_num [J_EXCHANGE]
    have hH : (0:ℝ) < HBAR := by norm_num [HBAR]
    have hm : J_EXCHANGE * uSpin.sy * HBAR < 0 :=
      mul_neg_of_neg_of_pos (mul_neg_of_pos_of_neg hJ uSpin_sy_neg) hH
    linarith
  · apply Real.sqrt_pos.mpr
    positivity

/-- After the `x = 0` block, the origin holds its updated value. -/
theorem pre_000 :
    (((block 0).foldl (fun st p => step_cell st ehalf p) (L0, 0))).1 (0, 0, 0) = uSpin := by
  rw [block0_decomp]
  have h := foldl_step_value ehalf [] tail0 (0, 0, 0) not_mem_tail0 (L0, 0)
  simp only [List.nil_append, List.foldl_nil] at h
  rw [h]
  rfl

/-- After the `x = 0` block, cells outside it are untouched. -/
theorem pre_untouched (p : ℕ × ℕ × ℕ) (hp : p.1 ≠ 0) :
    (((block 0).foldl (fun st p => step_cell st ehalf p) (L0, 0))).1 p = L0 p :=
  foldl_step_fst_of_not_mem ehalf (block 0) (L0, 0) p
    (fun hmem => hp (mem_block_fst hmem))

/-- Cell `(1,0,0)` is a visited cell. -/
theorem mem_order : ((1 : ℕ), (0 : ℕ), (0 : ℕ)) ∈ order_list := by
  rw [order_decomp]
  exact List.mem_append_right _ (List.mem_cons_self _ _)

/-- C7 counterexample: in the base.rs `evolve`, the value written at
`(1,0,0)` differs from the value the claimed snapshot discipline would
produce, on the concrete lattice `L0` with deterministic draws: the
sweep reads the already-updated origin spin through `get_neighbors`
(an in-step read/write race), giving a strictly positive x-component
where the snapshot computation gives zero. -/
theorem c7_counterexample :
    (evolve_step L0 ehalf 0).1 (1, 0, 0) ≠ evolve_step_snapshot L0 ehalf 0 (1, 0, 0) := by
  have hseq : (evolve_step L0 ehalf 0).1 (1, 0, 0) = cell_update Lmid (1 / 2) (1, 0, 0) := by
    rw [evolve_step, order_decomp,
      foldl_step_value ehalf (block 0) tailB (1, 0, 0) not_mem_tailB (L0, 0)]
    have hdraw : ehalf (((block 0).foldl (fun st p => step_cell st ehalf p) (L0, 0))).2 =
        1 / 2 := rfl
    rw [hdraw]
    apply cell_update_congr
    · rw [pre_untouched (1, 0, 0) (by simp)]
      rw [show Lmid (1, 0, 0) = L0 (1, 0, 0) from Function.update_noteq (by simp) _ _]
    · intro p hp
      rw [neighbor_positions] at hp
      fin_cases hp
      · have hLmid : Lmid (0, 0, 0) = uSpin := Function.update_same _ _ _
        rw [show wsub 1 = 0 from rfl, pre_000, hLmid]
      · rw [pre_untouched _ (by norm_num [LATTICE_SIZE])]
        exact (Function.update_noteq (by norm_num [LATTICE_SIZE]) _ _).symm
      · rw [pre_untouched _ (by norm_num)]
        exact (Function.update_noteq (by norm_num [wsub, usizeMax]) _ _).symm
      · rw [pre_untouched _ (by norm_num)]
        exact (Function.update_noteq (by norm_num) _ _).symm
      · rw [pre_untouched _ (by norm_num)]
        exact (Function.update_noteq (by norm_num [wsub, usizeMax]) _ _).symm
      · rw [pre_untouched _ (by norm_num)]
        exact (Function.update_noteq (by norm_num) _ _).symm
  have hsnap : evolve_step_snapshot L0 ehalf 0 (1, 0, 0) =
      cell_update L0 (1 / 2) (1, 0, 0) := by
    rw [evolve_step_snapshot]
    rw [if_pos mem_order]
    congr 1
  intro h
  have hx := congrArg Spin.sx h
  rw [hseq, hsnap, snap_sx_zero] at hx
  exact absurd hx (ne_of_gt seq_sx_pos)

/-- C7 amended: in spin-class/src/base.rs (and similarly
spin-class/src/main.rs, whose `get_neighbors` also reads `self.spins`),
the next state of a cell is computed from the LIVE buffer — the state
reached after sequentially processing every cell visited earlier in the
same step — and written in place, so it can depend on same-step writes;
the quark-gluon-plasma and photon-wells call sites do read from
start-of-step snapshots. -/
theorem c7_amended_live_read (lat : Grid) (e : ℕ → ℝ) (A B : List (ℕ × ℕ × ℕ))
    (c : ℕ × ℕ × ℕ) (horder : order_list = A ++ c :: B) (hcB : c ∉ B) :
    (evolve_step lat e 0).1 c =
      cell_update ((A.foldl (fun st p => step_cell st e p) (lat, 0))).1
        (e ((A.foldl (fun st p => step_cell st e p) (lat, 0))).2) c := by
  rw [evolve_step, horder]
  exact foldl_step_value e A B c hcB (lat, 0)

/-- Witness for C7 amended at the concrete decomposition around
`(1,0,0)`. -/
theorem c7_witness :
    order_list = block 0 ++ ((1, 0, 0) :: tailB) ∧
      ((1 : ℕ), (0 : ℕ), (0 : ℕ)) ∉ tailB ∧
      (evolve_step L0 ehalf 0).1 (1, 0, 0) =
        cell_update (((block 0).foldl (fun st p => step_cell st ehalf p) (L0, 0))).1
          (ehalf (((block 0).foldl (fun st p => step_cell st ehalf p) (L0, 0))).2)
          (1, 0, 0) :=
  ⟨order_decomp, not_mem_tailB,
    c7_amended_live_read L0 ehalf (block 0) tailB (1, 0, 0) order_decomp not_mem_tailB⟩

end SB
